import Mathlib

/-!
Verification of the jeweler combinatorial search engine (carterbox/jeweler).

Shallow embedding of the core of the repository:
  * `src/jeweler/search.py` — the batch generators (`_exhaustive_batch`,
    `_random_batch`), the per-batch evaluation step shared by `exhaustive`,
    `random` and `necklace`, and the weight filter of `lyndon`;
  * `src/jeweler/io.py` — the plain JSON `Archiver` and the extended
    `ArchiverPandas` (table, buffered dump, fetch with idxmax);
  * a spec-modelled resume orchestrator (the resume-capable search driver is
    not present in the source snapshot; only its callers and the
    `ArchiverPandas` declarations are).

Machine floats are modelled by `Score`: rationals extended with the two
infinities and NaN, together with the IEEE-754 comparison semantics used by
`numpy` (`>` and `<=` are false on NaN).  `np.argmax` is modelled after
numpy's C kernel for floats, which keeps the first NaN it meets.  File
input and output is modelled by an explicit disk value (`DiskFile`):
missing, unparseable, or parsed content.
-/

namespace Jeweler

/-- A machine float as used for objective scores and archived costs:
a rational number, one of the two infinities, or NaN. -/
inductive Score where
  | nan : Score
  | negInf : Score
  | fin (q : ℚ) : Score
  | posInf : Score
deriving DecidableEq, Repr

/-- IEEE-754 strict `>` as used by `scores[best] > score_best` and the
pandas/JSON cost comparisons: any comparison with NaN is false. -/
def Score.gt : Score → Score → Bool
  | .nan, _ => false
  | _, .nan => false
  | .posInf, .posInf => false
  | .posInf, _ => true
  | _, .posInf => false
  | .fin a, .fin b => decide (b < a)
  | .fin _, .negInf => true
  | .negInf, _ => false

/-- IEEE-754 `<=`: any comparison with NaN is false.  numpy's float argmax
kernel advances on `!(v <= current_max)` so that NaN propagates. -/
def Score.le : Score → Score → Bool
  | .nan, _ => false
  | _, .nan => false
  | .negInf, _ => true
  | _, .negInf => false
  | _, .posInf => true
  | .posInf, _ => false
  | .fin a, .fin b => decide (a ≤ b)

def Score.isNan : Score → Bool
  | .nan => true
  | _ => false

/-- Loop of numpy's `FLOAT_argmax`: scan keeping the current maximum
(index and value); replace it when `!(v <= max)` — which is also true when
`v` is NaN — and stop as soon as the current maximum is NaN.  The state is
`(bi, bv)` = (index of current max, its value), `i` = index of the head of
the remaining list. -/
def npArgmaxGo : List Score → ℕ → Score → ℕ → ℕ × Score
  | [], bi, bv, _ => (bi, bv)
  | v :: rest, bi, bv, i =>
    if bv.isNan then (bi, bv)
    else if v.le bv then npArgmaxGo rest bi bv (i + 1)
    else npArgmaxGo rest i v (i + 1)

/-- `np.argmax` on a 1-D float array.  On an empty array numpy raises
`ValueError`, modelled as `none`.  The returned pair carries the argmax
index together with the value found there (the value is provable from the
index, see `npArgmaxGo_get`). -/
def npArgmax : List Score → Option (ℕ × Score)
  | [] => none
  | v :: rest => some (npArgmaxGo rest 0 v 1)

/-- Errors surfaced by the embedded operations: `corrupt` stands for
`json.decoder.JSONDecodeError` / `pandas` `read_json` failures,
`notInCatalog` for `NotInCatalogError`, and `emptyArgmax` for the
`ValueError` numpy raises when `argmax` is applied to an empty array. -/
inductive Err where
  | corrupt : Err
  | notInCatalog : Err
  | emptyArgmax : Err
deriving DecidableEq, Repr

/-- In-memory state of one per-length search loop of `exhaustive` /
`random` / `necklace`: the running best code and score, plus the log of
`f.update(...)` calls issued to the archive. -/
structure SearchState where
  codeBest : Option (List ℕ)
  scoreBest : Score
  updates : List (List ℕ × Score)
deriving DecidableEq, Repr

/-- One iteration of the batch loop shared by `exhaustive`, `random` and
`necklace` in `search.py`:

    scores = objective_function(batch)
    best = np.argmax(scores)
    if scores[best] > score_best:
        score_best = scores[best]
        code_best = batch[best]
        f.update(...)
-/
def evalStep (obj : List (List ℕ) → List Score) (s : SearchState)
    (batch : List (List ℕ)) : Except Err SearchState :=
  match npArgmax (obj batch) with
  | none => .error .emptyArgmax
  | some (best, _) =>
    let v := (obj batch).getD best .nan
    if Score.gt v s.scoreBest then
      .ok ⟨some (batch.getD best []), v,
           s.updates ++ [(batch.getD best [], v)]⟩
    else .ok s

/-- `itertools.combinations(l, k)` in lexicographic order, as lists. -/
def combos : List ℕ → ℕ → List (List ℕ)
  | _, 0 => [[]]
  | [], _ + 1 => []
  | x :: xs, k + 1 => (combos xs k).map (x :: ·) ++ combos xs (k + 1)

/-- The binary code with ones exactly at the positions in `c`:
`row = zeros(L); row[c] = 1`. -/
def codeOf (L : ℕ) (c : List ℕ) : List ℕ :=
  (List.range L).map (fun i => if i ∈ c then 1 else 0)

/-- `int(length * density)`: the weight `k = ⌊L·density⌋` (densities are
nonnegative, where truncation and floor agree).  Computed as
`num / den`, which equals the floor (see `weightOf_eq_floor`). -/
def weightOf (L : ℕ) (density : ℚ) : ℕ :=
  (((L : ℚ) * density).num / (((L : ℚ) * density).den : ℤ)).toNat

/-- `batch_size = max(1, batch_bits // length)` from `exhaustive` and
`random`. -/
def batchSize (batchBits length' : ℕ) : ℕ :=
  max 1 (batchBits / length')

/-- Split a list into chunks of `bs` elements; the final leftover chunk is
always produced, even when it is empty.  This is the yield pattern of
`_exhaustive_batch`: it yields full `batch_size`-row arrays and, on
`StopIteration`, yields `codes[:count]` — which is empty when the number of
combinations is an exact multiple of `batch_size`.  The extra `ℕ` argument
is recursion fuel (initialised to the list length, which the well-founded
loop never exhausts). -/
def chunksGo (bs : ℕ) : ℕ → List (List ℕ) → List (List (List ℕ))
  | 0, l => [l]
  | fuel + 1, l =>
    if 1 ≤ bs ∧ bs ≤ l.length then l.take bs :: chunksGo bs fuel (l.drop bs)
    else [l]

def chunksWithTail (bs : ℕ) (l : List (List ℕ)) : List (List (List ℕ)) :=
  chunksGo bs l.length l

/-- The batch stream of `_exhaustive_batch(batch_size, length, weight)`:
indicator codes of the `weight`-combinations of `range(length)` in
lexicographic order, grouped into `batch_size`-row batches with the
trailing (possibly empty) partial batch. -/
def exhaustiveBatches (bs L w : ℕ) : List (List (List ℕ)) :=
  chunksWithTail bs ((combos (List.range L) w).map (codeOf L))

/-- `_random_batch(batch_size, L, k)`: `pick n r` models the draw
`rng.choice(L, k, replace=False)` for row `r` of batch `n` (a list of `k`
distinct positions below `L`).  The Python generator body is
`while True: yield codes` — it yields a batch for every index `n` and
never raises `StopIteration`, which `some` makes explicit. -/
def randomBatchGen (pick : ℕ → ℕ → List ℕ) (bs L _k : ℕ) (n : ℕ) :
    Option (List (List ℕ)) :=
  some ((List.range bs).map (fun r => codeOf L (pick n r)))

/-- Whether a generator modelled as `ℕ → Option α` has signalled
`StopIteration` within its first `fuel` batches; a `for` loop over it
terminates only when this becomes true. -/
def genExhaustedWithin (gen : ℕ → Option (List (List ℕ))) (fuel : ℕ) : Bool :=
  (List.range fuel).any (fun n => (gen n).isNone)

/-- Number of candidate codes drawn from the generator in its first `fuel`
batches. -/
def drawnWithin (gen : ℕ → Option (List (List ℕ))) (fuel : ℕ) : ℕ :=
  ((List.range fuel).map (fun n => ((gen n).getD []).length)).sum

/-- The candidates that the `lyndon` strategy actually scores: the word
stream is filtered by
`len(code) >= K and np.sum(code) == num_allowed_ones[len(code)]`
where `num_allowed_ones[n] = int(n * density)`. -/
def lyndonScored (K : ℕ) (density : ℚ) (ws : List (List ℕ)) : List (List ℕ) :=
  ws.filter (fun w => decide (K ≤ w.length) &&
    decide (w.sum = weightOf w.length density))

/-- The on-disk content of one per-length archive container: the file may
be absent, present but unparseable (`json.load` / `read_json` fails), or
present with parsed content. -/
inductive DiskFile (α : Type) where
  | missing : DiskFile α
  | corrupt : DiskFile α
  | good (data : α) : DiskFile α
deriving DecidableEq, Repr

/-- One record of the plain JSON `Archiver`: `{"cost": ..., "code": [...]}`. -/
structure JsonRecord where
  cost : Score
  code : List ℕ
deriving DecidableEq, Repr

/-- The parsed content of one `{L}.json` container of the plain `Archiver`,
a nested dict `data[str(weight)][objective] = record` flattened to an
association list keyed by `(weight, objective)`. -/
def JsonData : Type := List ((ℕ × String) × JsonRecord)

instance : DecidableEq JsonData := by unfold JsonData; infer_instance

/-- Dict lookup `data[W][objective]` (first matching key; a dict holds at
most one entry per key). -/
def alLookup (k : ℕ × String) (d : JsonData) : Option JsonRecord :=
  (d.find? (fun e => e.1 = k)).map (·.2)

/-- Dict assignment `data[W][objective] = rec`: replace the entry for the
key if present, otherwise append a new one. -/
def alInsert (k : ℕ × String) (r : JsonRecord) : JsonData → JsonData
  | [] => [(k, r)]
  | e :: es => if e.1 = k then (k, r) :: es else e :: alInsert k r es

/-- `Archiver.update` on parsed data (the in-memory mutation):

    if W not in data: data[W] = {}
    if (objective_function not in data[W]
            or data[W][objective_function]['cost'] < objective_cost):
        data[W][objective_function] = {'cost': ..., 'code': ...}
-/
def jsonUpdate (d : JsonData) (objective : String) (code : List ℕ)
    (cost : Score) (w : ℕ) : JsonData :=
  match alLookup (w, objective) d with
  | none => alInsert (w, objective) ⟨cost, code⟩ d
  | some r =>
    if Score.gt cost r.cost then alInsert (w, objective) ⟨cost, code⟩ d else d

/-- In-memory state of a plain `Archiver`: the per-length files of its
output directory, and the currently open container (`self.L`, `self.data`),
if any (`self.f is not None`). -/
structure ArchiverState where
  files : ℕ → DiskFile JsonData
  current : Option (ℕ × JsonData)

/-- `Archiver._close_file`: if a container is open, write the in-memory
data back to its file (truncate-then-rewrite) and mark it closed. -/
def archCloseFile (st : ArchiverState) : ArchiverState :=
  match st.current with
  | none => st
  | some (L, d) =>
    ⟨fun M => if M = L then .good d else st.files M, none⟩

/-- The load half of `Archiver._get_data`: create the file with `{}` if it
does not exist, then `json.load` it; a parse failure is re-raised. -/
def archLoad (st : ArchiverState) (L : ℕ) :
    Except Err (JsonData × ArchiverState) :=
  match st.files L with
  | .missing => .ok ([], ⟨fun M => if M = L then .good [] else st.files M,
      some (L, [])⟩)
  | .corrupt => .error .corrupt
  | .good d => .ok (d, ⟨st.files, some (L, d)⟩)

/-- `Archiver._get_data(L)`: return the cached data when container `L` is
already open, otherwise close the currently open container and load `L`
from disk. -/
def archGetData (st : ArchiverState) (L : ℕ) :
    Except Err (JsonData × ArchiverState) :=
  match st.current with
  | some (L0, d) => if L0 = L then .ok (d, st) else archLoad (archCloseFile st) L
  | none => archLoad (archCloseFile st) L

/-- `Archiver.update`: load (or reuse) the container for `len(best_code)`
and mutate the in-memory data; nothing is written to disk here. -/
def archUpdate (st : ArchiverState) (objective : String) (code : List ℕ)
    (cost : Score) (w : ℕ) : Except Err ArchiverState :=
  (archGetData st code.length).map (fun r =>
    ⟨r.2.files, some (code.length, jsonUpdate r.1 objective code cost w)⟩)

/-- `Archiver.fetch(L, objective_function, weight)`: read the container
file directly from disk (not the in-memory cache); a missing file or
missing record raises `NotInCatalogError`, an unparseable file re-raises
the decode error. -/
def archFetch (st : ArchiverState) (L : ℕ) (objective : String) (w : ℕ) :
    Except Err JsonRecord :=
  match st.files L with
  | .missing => .error .notInCatalog
  | .corrupt => .error .corrupt
  | .good d =>
    match alLookup (w, objective) d with
    | some r => .ok r
    | none => .error .notInCatalog

/-- One row of the `ArchiverPandas` table. -/
structure Row where
  search : String
  objective : String
  code : List ℕ
  cost : Score
  weight : ℕ
  progress : ℕ
deriving DecidableEq, Repr

def mkRow (s o : String) (code : List ℕ) (cost : Score) (w p : ℕ) : Row :=
  ⟨s, o, code, cost, w, p⟩

/-- The column subset of `drop_duplicates` in `ArchiverPandas.__dump__`:
`["objective", "weight", "progress"]` (note: not the strategy). -/
def keyOf (r : Row) : String × ℕ × ℕ := (r.objective, r.weight, r.progress)

/-- `drop_duplicates(subset=..., keep='last')`: keep a row only when no
later row has the same key. -/
def dropDupKeepLast : List Row → List Row
  | [] => []
  | r :: rest =>
    if rest.any (fun x => keyOf x = keyOf r) then dropDupKeepLast rest
    else r :: dropDupKeepLast rest

/-- `round({"cost": 6})`: round the cost column to six decimal places
(infinities and NaN are fixed points of rounding). -/
def round6 (q : ℚ) : ℚ := (round (q * 1000000) : ℚ) / 1000000

def roundCost : Score → Score
  | .fin q => .fin (round6 q)
  | s => s

def roundRow (r : Row) : Row :=
  { r with cost := roundCost r.cost }

/-- First index (and value) of the maximum cost, as computed by pandas
`idxmax`: NaN entries are skipped, ties keep the first occurrence, and an
empty (or all-NaN) column raises `ValueError`, modelled as `none`. -/
def pdIdxmaxGo : List Score → Option (ℕ × Score) → ℕ → Option (ℕ × Score)
  | [], acc, _ => acc
  | v :: rest, acc, i =>
    if v.isNan then pdIdxmaxGo rest acc (i + 1)
    else
      match acc with
      | none => pdIdxmaxGo rest (some (i, v)) (i + 1)
      | some (bi, bv) =>
        if v.gt bv then pdIdxmaxGo rest (some (i, v)) (i + 1)
        else pdIdxmaxGo rest (some (bi, bv)) (i + 1)

def pdIdxmax (l : List Score) : Option (ℕ × Score) :=
  pdIdxmaxGo l none 0

/-- In-memory state of an `ArchiverPandas`: the appended table, the
`best_cost` set by `__enter__`/`fetch`, the write-buffer bookkeeping and
the on-disk container.  `time.time()` stamps are modelled as integer
seconds (only differences and comparisons of time stamps are ever used). -/
structure PandasState where
  table : List Row
  bestCost : Score
  lastWrite : ℤ
  needsDump : Bool
  disk : DiskFile (List Row)
deriving DecidableEq, Repr

/-- `ArchiverPandas.__init__` followed by `__enter__` at time `now`:
empty table, `best_cost = -inf`, `last_write = now`, nothing pending. -/
def pandasEnter (disk : DiskFile (List Row)) (now : ℤ) : PandasState :=
  ⟨[], .negInf, now, false, disk⟩

/-- `ArchiverPandas.__dump__`: read the existing container if present
(a parse failure propagates), append the in-memory table to it, round the
cost column, drop duplicates on `(objective, weight, progress)` keeping the
last, and write the result back. -/
def pandasDump (st : PandasState) (now : ℤ) : Except Err PandasState :=
  match st.disk with
  | .missing =>
    let t := dropDupKeepLast (st.table.map roundRow)
    .ok ⟨t, st.bestCost, now, false, .good t⟩
  | .corrupt => .error .corrupt
  | .good ex =>
    let t := dropDupKeepLast ((ex ++ st.table).map roundRow)
    .ok ⟨t, st.bestCost, now, false, .good t⟩

/-- The append half of `ArchiverPandas.update`: a new row is appended to
the in-memory table iff `objective_cost > self.best_cost`; note that
`update` never modifies `self.best_cost` itself. -/
def pandasRecord (st : PandasState) (s o : String) (code : List ℕ)
    (cost : Score) (w p : ℕ) : PandasState :=
  if Score.gt cost st.bestCost then
    ⟨st.table ++ [mkRow s o code cost w p], st.bestCost, st.lastWrite, true,
      st.disk⟩
  else st

/-- `ArchiverPandas.update` at wall-clock time `now`: append-if-better,
then flush to disk only when a dump is pending and more than 1860 seconds
(31 minutes) have passed since the last write. -/
def pandasUpdate (st : PandasState) (s o : String) (code : List ℕ)
    (cost : Score) (w p : ℕ) (now : ℤ) : Except Err PandasState :=
  let st1 := pandasRecord st s o code cost w p
  if st1.needsDump ∧ now - st1.lastWrite > 1860 then pandasDump st1 now
  else .ok st1

/-- `ArchiverPandas.__exit__`: dump the table. -/
def pandasExit (st : PandasState) (now : ℤ) : Except Err PandasState :=
  pandasDump st now

/-- The row filter of `ArchiverPandas.fetch`:
`(table["objective"] == o) & (table["weight"] == w) & (table["search"] == s)`. -/
def rowMatches (s o : String) (w : ℕ) (r : Row) : Bool :=
  decide (r.objective = o) && decide (r.weight = w) && decide (r.search = s)

/-- `ArchiverPandas.fetch(search_method, objective_function, weight)`:
a missing container yields the not-found sentinel `(None, -inf, 0)`;
`read_json` on an unparseable container raises (it sits outside the
`try` that guards only the filtering and `idxmax`); otherwise select the
matching rows, take the row of maximal cost, remember its cost in
`self.best_cost` and return `(code, cost, progress)`.  An empty selection
makes `idxmax` raise `ValueError`, which is caught and turned into the
sentinel. -/
def pandasFetch (st : PandasState) (s o : String) (w : ℕ) :
    Except Err ((Option (List ℕ) × Score × ℕ) × PandasState) :=
  match st.disk with
  | .missing => .ok ((none, .negInf, 0), st)
  | .corrupt => .error .corrupt
  | .good rows =>
    let m := rows.filter (rowMatches s o w)
    match pdIdxmax (m.map (·.cost)) with
    | none => .ok ((none, .negInf, 0), st)
    | some (i, _) =>
      match m.get? i with
      | some r => .ok ((some r.code, r.cost, r.progress),
          ⟨st.table, r.cost, st.lastWrite, st.needsDump, st.disk⟩)
      | none => .ok ((none, .negInf, 0), st)

/-- Modelled from the spec: the persisted record that `fetch` returns for
one `(strategy, objective name, weight)` triple — best code, best cost and
the progress counter (spec section 4.3).  The resume-capable orchestrator
that uses it is code of this repository missing from the source snapshot
(`cli.py` passes `verbose_archive` to search functions that do not accept
it, and `ArchiverPandas.fetch`/`progress` have no caller); its archive
record and sentinel follow the spec and `ArchiverPandas.fetch`. -/
structure SpecArchive where
  code : Option (List ℕ)
  cost : Score
  progress : ℕ
deriving DecidableEq, Repr

/-- The not-found sentinel `(code=None, cost=-inf, progress=0)`. -/
def sentinelArchive : SpecArchive := ⟨none, .negInf, 0⟩

/-- Modelled from the spec: `update` on the archive record (spec section
4.3) — code and cost are replaced iff the new cost is strictly greater
than the stored cost, while the progress counter always advances to the
number of candidates examined. -/
def specUpdate (a : SpecArchive) (code : List ℕ) (cost : Score)
    (progress : ℕ) : SpecArchive :=
  if Score.gt cost a.cost then ⟨some code, cost, progress⟩
  else ⟨a.code, a.cost, progress⟩

/-- Modelled from the spec: one step of the resume-capable orchestrator
(spec section 4.4) over a fold state `(archive record, cumulative
candidate count)`.  A batch whose cumulative count is still at most the
fetched `progress` `p` is skipped without invoking the objective; an
evaluated batch takes the batch-local argmax and calls `update`, which
replaces code/cost only on strict improvement. -/
def orchBatch (obj : List (List ℕ) → List Score) (p : ℕ)
    (s : SpecArchive × ℕ) (b : List (List ℕ)) : SpecArchive × ℕ :=
  let n := s.2 + b.length
  if n ≤ p then (s.1, n)
  else
    match npArgmax (obj b) with
    | none => (s.1, n)
    | some (i, _) => (specUpdate s.1 (b.getD i []) ((obj b).getD i .nan) n, n)

/-- Modelled from the spec: run one length of a deterministic strategy
from a fetched archive record `a` — skip past `a.progress` already-counted
candidates, then search the remaining batches, returning the final
archive record. -/
def orchRun (obj : List (List ℕ) → List Score) (a : SpecArchive)
    (batches : List (List (List ℕ))) : SpecArchive :=
  (batches.foldl (orchBatch obj a.progress) (a, 0)).1

/-- Number of objective-function invocations made by `orchRun` with fetched
progress `p`, starting from cumulative count `n`: one per non-skipped
batch. -/
def orchCalls (p : ℕ) : ℕ → List (List (List ℕ)) → ℕ
  | _, [] => 0
  | n, b :: l =>
    (if n + b.length ≤ p then 0 else 1) + orchCalls p (n + b.length) l

/-- Total number of candidate codes in a list of batches. -/
def sizeSum (l : List (List (List ℕ))) : ℕ := (l.map List.length).sum

/-- Concrete deterministic vectorized objective used by witnesses: the sum
of each code, as a finite score. -/
def demoObj : List (List ℕ) → List Score :=
  fun b => b.map (fun c => Score.fin (c.sum : ℚ))

/-- Concrete two-batch stream used by witnesses. -/
def demoBatches : List (List (List ℕ)) := [[[1, 0]], [[0, 1], [1, 1]]]

/-- Concrete draw function used by witnesses, standing for
`rng.choice(4, 2, replace=False)` always returning positions 0 and 1. -/
def demoPick : ℕ → ℕ → List ℕ := fun _ _ => [0, 1]

theorem weightOf_eq_floor (L : ℕ) (d : ℚ) :
    weightOf L d = (⌊(L : ℚ) * d⌋).toNat := by
  unfold weightOf
  rw [Rat.floor_def]

theorem weightOf_four_half : weightOf 4 (1 / 2) = 2 := by
  unfold weightOf
  rw [show ((4 : ℕ) : ℚ) * (1 / 2) = 2 by norm_num]
  rfl

theorem demoPick_spec (m r : ℕ) : (demoPick m r).Nodup
    ∧ (demoPick m r).length = 2 ∧ ∀ j ∈ demoPick m r, j < 4 := by
  unfold demoPick
  exact ⟨by decide, by decide, by decide⟩

theorem demoLyndonMem : [0, 1, 1, 0] ∈ lyndonScored 2 (1 / 2) [[0, 1, 1, 0]] := by
  unfold lyndonScored
  rw [List.mem_filter]
  refine ⟨by decide, ?_⟩
  rw [show ([0, 1, 1, 0] : List ℕ).length = 4 by rfl, weightOf_four_half]
  decide

theorem Score.gt_nan_left (x : Score) : Score.gt .nan x = false := by
  cases x <;> rfl

theorem Score.gt_negInf_left (x : Score) : Score.gt .negInf x = false := by
  cases x <;> rfl

theorem Score.gt_posInf_left (x : Score) (h1 : x ≠ .posInf) (h2 : x ≠ .nan) :
    Score.gt .posInf x = true := by
  cases x <;> simp_all [Score.gt]

theorem Score.isNan_false_of_le (v bv : Score) (h : Score.le v bv = true) :
    v.isNan = false := by
  cases v <;> cases bv <;> simp_all [Score.le, Score.isNan]

theorem Score.eq_nan_of_isNan (v : Score) (h : v.isNan = true) : v = .nan := by
  cases v <;> simp_all [Score.isNan]

theorem npArgmaxGo_isNan (rest : List Score) :
    ∀ bi bv i, ((npArgmaxGo rest bi bv i).2).isNan
      = (bv.isNan || rest.any Score.isNan) := by
  induction rest with
  | nil => intro bi bv i; simp [npArgmaxGo]
  | cons v r ih =>
    intro bi bv i
    by_cases hb : bv.isNan
    · simp [npArgmaxGo, hb]
    · by_cases hle : Score.le v bv
      · have hv : v.isNan = false := Score.isNan_false_of_le v bv hle
        simp [npArgmaxGo, hb, hle, ih, hv]
      · simp [npArgmaxGo, hb, hle, ih]

theorem npArgmaxGo_get (rest : List Score) :
    ∀ (full : List Score) (bi : ℕ) (bv : Score) (i : ℕ),
      full.get? bi = some bv → (∀ j, full.get? (i + j) = rest.get? j) →
      full.get? (npArgmaxGo rest bi bv i).1 = some (npArgmaxGo rest bi bv i).2 := by
  induction rest with
  | nil => intro full bi bv i hbi _; simpa [npArgmaxGo] using hbi
  | cons v r ih =>
    intro full bi bv i hbi hoff
    have hv : full.get? i = some v := by simpa using hoff 0
    have hoff' : ∀ j, full.get? (i + 1 + j) = r.get? j := by
      intro j
      have h2 := hoff (j + 1)
      rw [show i + (j + 1) = i + 1 + j by omega] at h2
      simpa using h2
    by_cases hb : bv.isNan
    · simpa [npArgmaxGo, hb] using hbi
    · by_cases hle : Score.le v bv
      · simpa [npArgmaxGo, hb, hle] using ih full bi bv (i + 1) hbi hoff'
      · simpa [npArgmaxGo, hb, hle] using ih full i v (i + 1) hv hoff'

theorem npArgmax_get (l : List Score) (i : ℕ) (v : Score)
    (h : npArgmax l = some (i, v)) : l.get? i = some v := by
  match l with
  | [] => simp [npArgmax] at h
  | x :: rest =>
    have hres : npArgmaxGo rest 0 x 1 = (i, v) := by
      simpa [npArgmax] using h
    have := npArgmaxGo_get rest (x :: rest) 0 x 1 (by simp)
      (by intro j; simp [Nat.add_comm])
    rw [hres] at this
    exact this

theorem npArgmax_getElem (l : List Score) (i : ℕ) (v : Score)
    (h : npArgmax l = some (i, v)) : l[i]? = some v := by
  rw [← List.get?_eq_getElem?]
  exact npArgmax_get l i v h

theorem npArgmax_nan (l : List Score) (i : ℕ) (v : Score)
    (h : npArgmax l = some (i, v)) (hnan : Score.nan ∈ l) : v = .nan := by
  match l with
  | [] => simp [npArgmax] at h
  | x :: rest =>
    have hres : npArgmaxGo rest 0 x 1 = (i, v) := by
      simpa [npArgmax] using h
    have hr := npArgmaxGo_isNan rest 0 x 1
    rw [hres] at hr
    have hany : (x.isNan || rest.any Score.isNan) = true := by
      rcases List.mem_cons.1 hnan with h0 | h0
      · simp [← h0, Score.isNan]
      · have : rest.any Score.isNan = true :=
          List.any_eq_true.2 ⟨_, h0, rfl⟩
        simp [this]
    exact Score.eq_nan_of_isNan v (by rw [hr, hany])

theorem npArgmax_of_ne_nil (l : List Score) (h : l ≠ []) :
    ∃ iv, npArgmax l = some iv := by
  cases l with
  | nil => exact absurd rfl h
  | cons x rest => exact ⟨_, rfl⟩

theorem combos_mem (l : List ℕ) :
    ∀ k c, c ∈ combos l k → c.length = k ∧ c.Sublist l := by
  induction l with
  | nil =>
    intro k c hc
    cases k with
    | zero =>
      simp [combos] at hc
      simp [hc]
    | succ k => simp [combos] at hc
  | cons x xs ih =>
    intro k c hc
    cases k with
    | zero =>
      simp [combos] at hc
      simp [hc]
    | succ k =>
      simp only [combos, List.mem_append, List.mem_map] at hc
      rcases hc with ⟨c', hc', rfl⟩ | hc
      · obtain ⟨hlen, hsub⟩ := ih k c' hc'
        exact ⟨by simp [hlen], List.Sublist.cons₂ x hsub⟩
      · obtain ⟨hlen, hsub⟩ := ih (k + 1) c hc
        exact ⟨hlen, hsub.cons x⟩

theorem sum_map_indicator (l : List ℕ) (c : List ℕ) :
    (l.map (fun i => if i ∈ c then 1 else 0)).sum
      = l.countP (fun i => decide (i ∈ c)) := by
  induction l with
  | nil => rfl
  | cons x xs ih =>
    by_cases h : x ∈ c <;>
      simp [List.countP_cons, h, ih, Nat.add_comm]

theorem codeOf_length (L : ℕ) (c : List ℕ) : (codeOf L c).length = L := by
  simp [codeOf]

theorem codeOf_sum (L : ℕ) (c : List ℕ) (hnd : c.Nodup)
    (hlt : ∀ m ∈ c, m < L) : (codeOf L c).sum = c.length := by
  unfold codeOf
  rw [sum_map_indicator, List.countP_eq_length_filter]
  have hperm : List.Perm ((List.range L).filter (fun i => decide (i ∈ c))) c := by
    refine (List.perm_ext_iff_of_nodup
      ((List.nodup_range L).filter _) hnd).2 ?_
    intro a
    simp only [List.mem_filter, List.mem_range, decide_eq_true_eq]
    exact ⟨fun h => h.2, fun h => ⟨hlt a h, h⟩⟩
  exact hperm.length_eq

theorem chunksGo_mem (bs : ℕ) :
    ∀ fuel (l : List (List ℕ)) batch, batch ∈ chunksGo bs fuel l →
      ∀ x ∈ batch, x ∈ l := by
  intro fuel
  induction fuel with
  | zero =>
    intro l batch hb x hx
    simp [chunksGo] at hb
    exact hb ▸ hx
  | succ fuel ih =>
    intro l batch hb x hx
    by_cases h : 1 ≤ bs ∧ bs ≤ l.length
    · simp only [chunksGo, if_pos h, List.mem_cons] at hb
      rcases hb with rfl | hb
      · exact List.mem_of_mem_take hx
      · exact List.mem_of_mem_drop (ih (l.drop bs) batch hb x hx)
    · simp only [chunksGo, if_neg h, List.mem_singleton] at hb
      exact hb ▸ hx

theorem exhaustiveBatches_row (bs L w : ℕ) (batch : List (List ℕ))
    (hb : batch ∈ exhaustiveBatches bs L w) (row : List ℕ) (hr : row ∈ batch) :
    ∃ c ∈ combos (List.range L) w, row = codeOf L c := by
  have hmem := chunksGo_mem bs _ _ batch hb row hr
  rcases List.mem_map.1 hmem with ⟨c, hc, rfl⟩
  exact ⟨c, hc, rfl⟩

theorem mem_dropDupKeepLast (l : List Row) (x : Row)
    (h : x ∈ dropDupKeepLast l) : x ∈ l := by
  induction l with
  | nil => simp [dropDupKeepLast] at h
  | cons r rest ih =>
    by_cases hc : rest.any (fun y => keyOf y = keyOf r)
    · simp only [dropDupKeepLast, if_pos hc] at h
      exact List.mem_cons_of_mem r (ih h)
    · simp only [dropDupKeepLast, if_neg hc, List.mem_cons] at h
      rcases h with rfl | h
      · exact List.mem_cons_self x rest
      · exact List.mem_cons_of_mem r (ih h)

theorem dropDupKeepLast_concat (l : List Row) (r : Row) :
    ∃ u, dropDupKeepLast (l ++ [r]) = u ++ [r] ∧ ∀ x ∈ u, x ∈ l := by
  induction l with
  | nil =>
    refine ⟨[], ?_, by simp⟩
    simp [dropDupKeepLast]
  | cons y l ih =>
    obtain ⟨u, hu, hmem⟩ := ih
    have hstep : dropDupKeepLast ((y :: l) ++ [r])
        = if (l ++ [r]).any (fun z => keyOf z = keyOf y)
          then dropDupKeepLast (l ++ [r])
          else y :: dropDupKeepLast (l ++ [r]) := rfl
    by_cases hc : (l ++ [r]).any (fun z => keyOf z = keyOf y)
    · refine ⟨u, ?_, fun x hx => List.mem_cons_of_mem y (hmem x hx)⟩
      rw [hstep, if_pos hc, hu]
    · refine ⟨y :: u, ?_, ?_⟩
      · rw [hstep, if_neg hc, hu]
        rfl
      · intro x hx
        rcases List.mem_cons.1 hx with rfl | hx
        · exact List.mem_cons_self x l
        · exact List.mem_cons_of_mem y (hmem x hx)

theorem dropDupKeepLast_pairwise (l : List Row) :
    (dropDupKeepLast l).Pairwise (fun a b => keyOf a ≠ keyOf b) := by
  induction l with
  | nil => simp [dropDupKeepLast]
  | cons r rest ih =>
    by_cases hc : rest.any (fun y => keyOf y = keyOf r)
    · simpa only [dropDupKeepLast, if_pos hc] using ih
    · simp only [dropDupKeepLast, if_neg hc]
      refine List.Pairwise.cons ?_ ih
      intro y hy heq
      have hym : y ∈ rest := mem_dropDupKeepLast rest y hy
      have : rest.any (fun z => keyOf z = keyOf r) = true :=
        List.any_eq_true.2 ⟨y, hym, by simp [heq]⟩
      simp [this] at hc

theorem pdIdxmaxGo_concat (v : Score) (hv : v.isNan = false) :
    ∀ (l : List Score) (acc : Option (ℕ × Score)) (i : ℕ),
      (∀ c ∈ l, Score.gt v c = true) →
      (∀ bi bv, acc = some (bi, bv) → Score.gt v bv = true) →
      pdIdxmaxGo (l ++ [v]) acc i = some (i + l.length, v) := by
  intro l
  induction l with
  | nil =>
    intro acc i _ hacc
    match acc with
    | none => simp [pdIdxmaxGo, hv]
    | some (bi, bv) =>
      have hgt := hacc bi bv rfl
      have hbn : bv.isNan = false := by
        cases bv <;> cases v <;> simp_all [Score.gt, Score.isNan]
      simp [pdIdxmaxGo, hv, hgt, hbn]
  | cons c l ih =>
    intro acc i hall hacc
    have hcgt : Score.gt v c = true := hall c (List.mem_cons_self c l)
    have hall' : ∀ x ∈ l, Score.gt v x = true :=
      fun x hx => hall x (List.mem_cons_of_mem c hx)
    by_cases hcn : c.isNan
    · have : pdIdxmaxGo ((c :: l) ++ [v]) acc i
          = pdIdxmaxGo (l ++ [v]) acc (i + 1) := by
        simp [pdIdxmaxGo, hcn]
      rw [this, ih acc (i + 1) hall' hacc]
      simp [List.length_cons]
      omega
    · match acc with
      | none =>
        have : pdIdxmaxGo ((c :: l) ++ [v]) none i
            = pdIdxmaxGo (l ++ [v]) (some (i, c)) (i + 1) := by
          simp [pdIdxmaxGo, hcn]
        rw [this, ih (some (i, c)) (i + 1) hall'
          (by intro bi bv hbv; cases hbv; exact hcgt)]
        simp [List.length_cons]
        omega
      | some (bi, bv) =>
        have hbgt := hacc bi bv rfl
        by_cases hcb : Score.gt c bv
        · have : pdIdxmaxGo ((c :: l) ++ [v]) (some (bi, bv)) i
              = pdIdxmaxGo (l ++ [v]) (some (i, c)) (i + 1) := by
            simp [pdIdxmaxGo, hcn, hcb]
          rw [this, ih (some (i, c)) (i + 1) hall'
            (by intro bi' bv' hbv; cases hbv; exact hcgt)]
          simp [List.length_cons]
          omega
        · have : pdIdxmaxGo ((c :: l) ++ [v]) (some (bi, bv)) i
              = pdIdxmaxGo (l ++ [v]) (some (bi, bv)) (i + 1) := by
            simp [pdIdxmaxGo, hcn, hcb]
          rw [this, ih (some (bi, bv)) (i + 1) hall' hacc]
          simp [List.length_cons]
          omega

theorem pdIdxmax_concat (l : List Score) (v : Score) (hv : v.isNan = false)
    (hall : ∀ c ∈ l, Score.gt v c = true) :
    pdIdxmax (l ++ [v]) = some (l.length, v) := by
  have := pdIdxmaxGo_concat v hv l none 0 hall (by intro bi bv h; cases h)
  simpa [pdIdxmax] using this

theorem alInsert_keys (k : ℕ × String) (r : JsonRecord) :
    ∀ (d : JsonData) (x : ℕ × String), x ∈ (alInsert k r d).map Prod.fst →
      x = k ∨ x ∈ d.map Prod.fst := by
  intro d
  induction d with
  | nil =>
    intro x hx
    simp [alInsert] at hx
    exact Or.inl hx
  | cons e es ih =>
    intro x hx
    by_cases he : e.1 = k
    · simp only [alInsert, if_pos he, List.map_cons, List.mem_cons] at hx
      rcases hx with rfl | hx
      · exact Or.inl rfl
      · exact Or.inr (by simp [hx])
    · simp only [alInsert, if_neg he, List.map_cons, List.mem_cons] at hx
      rcases hx with rfl | hx
      · exact Or.inr (by simp)
      · rcases ih x hx with h | h
        · exact Or.inl h
        · exact Or.inr (by simp [h])

theorem alInsert_nodupKeys (k : ℕ × String) (r : JsonRecord) :
    ∀ d : JsonData, (d.map Prod.fst).Nodup →
      ((alInsert k r d).map Prod.fst).Nodup := by
  intro d
  induction d with
  | nil => intro _; simp [alInsert]
  | cons e es ih =>
    intro hnd
    simp only [List.map_cons, List.nodup_cons] at hnd
    by_cases he : e.1 = k
    · simp only [alInsert, if_pos he, List.map_cons, List.nodup_cons]
      exact ⟨by rw [← he]; exact hnd.1, hnd.2⟩
    · simp only [alInsert, if_neg he, List.map_cons, List.nodup_cons]
      refine ⟨?_, ih hnd.2⟩
      intro hmem
      rcases alInsert_keys k r es e.1 hmem with h | h
      · exact he h
      · exact hnd.1 h

theorem jsonUpdate_nodupKeys (d : JsonData) (o : String) (code : List ℕ)
    (cost : Score) (w : ℕ) (hnd : (d.map Prod.fst).Nodup) :
    ((jsonUpdate d o code cost w).map Prod.fst).Nodup := by
  unfold jsonUpdate
  match alLookup (w, o) d with
  | none => exact alInsert_nodupKeys _ _ d hnd
  | some r =>
    by_cases h : Score.gt cost r.cost <;> simp only [if_pos, if_neg, h]
    · exact alInsert_nodupKeys _ _ d hnd
    · exact hnd

theorem sizeSum_nil : sizeSum [] = 0 := rfl

theorem sizeSum_cons (b : List (List ℕ)) (l : List (List (List ℕ))) :
    sizeSum (b :: l) = b.length + sizeSum l := by
  simp [sizeSum]

theorem specUpdate_progress (a : SpecArchive) (c : List ℕ) (v : Score)
    (n : ℕ) : (specUpdate a c v n).progress = n := by
  unfold specUpdate
  split <;> rfl

theorem orchBatch_snd (obj : List (List ℕ) → List Score) (p : ℕ)
    (s : SpecArchive × ℕ) (b : List (List ℕ)) :
    (orchBatch obj p s b).2 = s.2 + b.length := by
  simp only [orchBatch]
  split
  · rfl
  · rcases npArgmax (obj b) with _ | ⟨i, v⟩ <;> rfl

theorem orch_cum (obj : List (List ℕ) → List Score) (p : ℕ) :
    ∀ (l : List (List (List ℕ))) (s : SpecArchive × ℕ),
      (List.foldl (orchBatch obj p) s l).2 = s.2 + sizeSum l := by
  intro l
  induction l with
  | nil => intro s; simp [sizeSum]
  | cons b l ih =>
    intro s
    rw [List.foldl_cons, ih, orchBatch_snd, sizeSum_cons]
    omega

theorem orch_skip (obj : List (List ℕ) → List Score) (p : ℕ) :
    ∀ (l : List (List (List ℕ))) (a : SpecArchive) (n : ℕ),
      n + sizeSum l ≤ p →
      List.foldl (orchBatch obj p) (a, n) l = (a, n + sizeSum l) := by
  intro l
  induction l with
  | nil => intro a n _; simp [sizeSum]
  | cons b l ih =>
    intro a n h
    rw [sizeSum_cons] at h
    have hb : n + b.length ≤ p := by omega
    have hstep : orchBatch obj p (a, n) b = (a, n + b.length) := by
      simp [orchBatch, hb]
    rw [List.foldl_cons, hstep, ih a (n + b.length) (by omega), sizeSum_cons]
    congr 1
    omega

theorem orch_p_irrel (obj : List (List ℕ) → List Score) :
    ∀ (l : List (List (List ℕ))) (s : SpecArchive × ℕ) (p q : ℕ),
      (∀ b ∈ l, 0 < b.length) → p ≤ s.2 → q ≤ s.2 →
      List.foldl (orchBatch obj p) s l = List.foldl (orchBatch obj q) s l := by
  intro l
  induction l with
  | nil => intro s p q _ _ _; rfl
  | cons b l ih =>
    intro s p q hne hp hq
    have hb : 0 < b.length := hne b (List.mem_cons_self b l)
    have hnp : ¬ (s.2 + b.length ≤ p) := by omega
    have hnq : ¬ (s.2 + b.length ≤ q) := by omega
    have hstep : orchBatch obj p s b = orchBatch obj q s b := by
      simp only [orchBatch]
      rw [if_neg hnp, if_neg hnq]
    rw [List.foldl_cons, List.foldl_cons, hstep]
    refine ih _ p q (fun x hx => hne x (List.mem_cons_of_mem b hx)) ?_ ?_ <;>
      rw [orchBatch_snd] <;> omega

theorem orch_progress (obj : List (List ℕ) → List Score)
    (hobj : ∀ b, (obj b).length = b.length) :
    ∀ (l : List (List (List ℕ))) (a : SpecArchive) (n : ℕ), l ≠ [] →
      (∀ b ∈ l, 0 < b.length) →
      (List.foldl (orchBatch obj 0) (a, n) l).1.progress = n + sizeSum l := by
  intro l
  induction l with
  | nil => intro a n h _; exact absurd rfl h
  | cons b l ih =>
    intro a n _ hne
    have hb : 0 < b.length := hne b (List.mem_cons_self b l)
    have hnz : ¬ (n + b.length ≤ 0) := by omega
    obtain ⟨⟨i, v⟩, hiv⟩ : ∃ iv, npArgmax (obj b) = some iv := by
      apply npArgmax_of_ne_nil
      intro hnil
      have h1 := hobj b
      rw [hnil] at h1
      simp at h1
      omega
    have hstep : orchBatch obj 0 (a, n) b
        = (specUpdate a (b.getD i []) ((obj b).getD i .nan) (n + b.length),
           n + b.length) := by
      simp [orchBatch, hnz, hiv]
    rw [List.foldl_cons, hstep]
    rcases l with _ | ⟨b2, l2⟩
    · simp [sizeSum_cons, sizeSum_nil, specUpdate_progress]
    · rw [ih _ _ (by simp) (fun x hx => hne x (List.mem_cons_of_mem b hx))]
      simp only [sizeSum_cons]
      omega

theorem orchCalls_append (p : ℕ) :
    ∀ (l1 l2 : List (List (List ℕ))) (n : ℕ),
      orchCalls p n (l1 ++ l2)
        = orchCalls p n l1 + orchCalls p (n + sizeSum l1) l2 := by
  intro l1
  induction l1 with
  | nil => intro l2 n; simp [orchCalls, sizeSum]
  | cons b l ih =>
    intro l2 n
    simp only [List.cons_append, orchCalls, List.append_eq]
    rw [ih, sizeSum_cons, show n + (b.length + sizeSum l)
      = n + b.length + sizeSum l by omega]
    omega

theorem orchCalls_skip (p : ℕ) :
    ∀ (l : List (List (List ℕ))) (n : ℕ), n + sizeSum l ≤ p →
      orchCalls p n l = 0 := by
  intro l
  induction l with
  | nil => intro n _; rfl
  | cons b l ih =>
    intro n h
    rw [sizeSum_cons] at h
    simp only [orchCalls]
    rw [if_pos (by omega), ih (n + b.length) (by omega)]

theorem orchCalls_all (p : ℕ) :
    ∀ (l : List (List (List ℕ))) (n : ℕ), (∀ b ∈ l, 0 < b.length) → p ≤ n →
      orchCalls p n l = l.length := by
  intro l
  induction l with
  | nil => intro n _ _; rfl
  | cons b l ih =>
    intro n hne hp
    have hb : 0 < b.length := hne b (List.mem_cons_self b l)
    simp only [orchCalls]
    rw [if_neg (by omega),
      ih (n + b.length) (fun x hx => hne x (List.mem_cons_of_mem b hx))
        (by omega)]
    simp [List.length_cons]
    omega

/-- C1: for a deterministic strategy (necklace/lyndon/exhaustive — any
fixed batch stream produced by a deterministic generator at fixed
length/density) and a fixed objective, running the search to completion in
one pass yields the same final archive record — in particular the same
best (code, cost) — as running it in two passes: run the first `t` batches,
persist, then resume from the fetched record over the whole stream.
Moreover the resumed pass invokes the objective function exactly once per
batch past the fetched progress and never on the skipped prefix:
`batches.length - t` invocations in total.  (Resume-capable orchestrator
modelled from the spec, sections 4.3 and 4.4; see `SpecArchive`.) -/
theorem claim1_resume_idempotent (obj : List (List ℕ) → List Score)
    (batches : List (List (List ℕ))) (t : ℕ)
    (hne : ∀ b ∈ batches, 0 < b.length)
    (hobj : ∀ b, (obj b).length = b.length)
    (ht : t ≤ batches.length) :
    orchRun obj (orchRun obj sentinelArchive (batches.take t)) batches
      = orchRun obj sentinelArchive batches
    ∧ orchCalls (orchRun obj sentinelArchive (batches.take t)).progress 0
        batches = batches.length - t := by
  have e0 : sentinelArchive.progress = 0 := rfl
  by_cases htk : batches.take t = []
  · have ha1 : orchRun obj sentinelArchive (batches.take t)
        = sentinelArchive := by
      rw [htk]
      rfl
    rw [ha1, e0]
    refine ⟨rfl, ?_⟩
    rw [orchCalls_all 0 batches 0 hne (Nat.le_refl 0)]
    rcases List.take_eq_nil_iff.1 htk with rfl | rfl
    · omega
    · simp at ht
      omega
  · set a1 := orchRun obj sentinelArchive (batches.take t) with ha1def
    have hpre : ∀ b ∈ batches.take t, 0 < b.length :=
      fun b hb => hne b (List.mem_of_mem_take hb)
    have hdrop : ∀ b ∈ batches.drop t, 0 < b.length :=
      fun b hb => hne b (List.mem_of_mem_drop hb)
    have hprog : a1.progress = sizeSum (batches.take t) := by
      rw [ha1def]
      unfold orchRun
      rw [e0]
      have := orch_progress obj hobj (batches.take t) sentinelArchive 0 htk hpre
      rw [this]
      omega
    have hX : List.foldl (orchBatch obj 0) (sentinelArchive, 0)
        (batches.take t) = (a1, sizeSum (batches.take t)) := by
      have h2 := orch_cum obj 0 (batches.take t) (sentinelArchive, 0)
      have h1 : (List.foldl (orchBatch obj 0) (sentinelArchive, 0)
          (batches.take t)).1 = a1 := by
        rw [ha1def]
        unfold orchRun
        rw [e0]
      refine Prod.ext h1 ?_
      rw [h2]
      omega
    constructor
    · have lhs1 : orchRun obj a1 batches
          = (List.foldl (orchBatch obj a1.progress)
              (a1, sizeSum (batches.take t)) (batches.drop t)).1 := by
        unfold orchRun
        conv_lhs => rw [← List.take_append_drop t batches]
        rw [List.foldl_append,
          orch_skip obj a1.progress (batches.take t) a1 0 (by omega),
          Nat.zero_add]
      have rhs1 : orchRun obj sentinelArchive batches
          = (List.foldl (orchBatch obj 0)
              (a1, sizeSum (batches.take t)) (batches.drop t)).1 := by
        unfold orchRun
        rw [e0]
        conv_lhs => rw [← List.take_append_drop t batches]
        rw [List.foldl_append, hX]
      rw [lhs1, rhs1,
        orch_p_irrel obj (batches.drop t) (a1, sizeSum (batches.take t))
          a1.progress 0 hdrop (by simp [hprog]) (by omega)]
    · conv_lhs => rw [← List.take_append_drop t batches]
      rw [orchCalls_append, orchCalls_skip a1.progress (batches.take t) 0
        (by omega),
        orchCalls_all a1.progress (batches.drop t) (0 + sizeSum (batches.take t))
          hdrop (by omega),
        List.length_drop]
      omega

theorem claim1_resume_idempotent_witness :
    ((∀ b ∈ demoBatches, 0 < b.length) ∧ 1 ≤ demoBatches.length)
    ∧ (orchRun demoObj (orchRun demoObj sentinelArchive (demoBatches.take 1))
          demoBatches = orchRun demoObj sentinelArchive demoBatches
      ∧ orchCalls
          (orchRun demoObj sentinelArchive (demoBatches.take 1)).progress 0
          demoBatches = demoBatches.length - 1) :=
  ⟨⟨by decide, by decide⟩,
   claim1_resume_idempotent demoObj demoBatches 1 (by decide)
     (fun b => List.length_map b _) (by decide)⟩

/-- C10: if the objective returns NaN for at least one candidate of a
batch, no candidate of that batch can become the running best or be
written to the archive — numpy's argmax selects the (first) NaN position,
and the strict comparison `scores[best] > score_best` is then false, so
the batch step returns the state unchanged (no update call is logged),
even when the batch contains a finite score exceeding the running best. -/
theorem claim10_nan_poisons_batch (obj : List (List ℕ) → List Score)
    (s : SearchState) (batch : List (List ℕ))
    (hnan : Score.nan ∈ obj batch) :
    evalStep obj s batch = .ok s := by
  have hne : obj batch ≠ [] := by
    intro h
    rw [h] at hnan
    simp at hnan
  obtain ⟨⟨i, v⟩, hiv⟩ := npArgmax_of_ne_nil (obj batch) hne
  have hv : v = .nan := npArgmax_nan _ _ _ hiv hnan
  have hget : (obj batch)[i]? = some v := npArgmax_getElem _ _ _ hiv
  simp [evalStep, hiv, hget, hv, Score.gt_nan_left]

theorem claim10_nan_poisons_batch_witness :
    (Score.nan ∈ (fun _ : List (List ℕ) => [Score.fin 100, Score.nan])
      [[1, 0], [0, 1]])
    ∧ evalStep (fun _ : List (List ℕ) => [Score.fin 100, Score.nan])
        ⟨some [0], .fin 1, []⟩ [[1, 0], [0, 1]]
      = .ok ⟨some [0], .fin 1, []⟩ :=
  ⟨by decide,
   claim10_nan_poisons_batch (fun _ => [Score.fin 100, Score.nan])
     ⟨some [0], .fin 1, []⟩ [[1, 0], [0, 1]] (by decide)⟩

/-- C9 counterexample: the claim says every non-finite value (NaN *or an
infinity*) at the batch argmax is rejected as not-better.  False: a `+inf`
score is strictly greater than the running best `-inf`, so the candidate
is accepted as the new best and an archive update is issued. -/
theorem claim9_nonfinite_cex :
    evalStep (fun _ : List (List ℕ) => [Score.posInf]) ⟨none, .negInf, []⟩
      [[1, 0]]
      = .ok ⟨some [1, 0], .posInf, [([1, 0], .posInf)]⟩ := by
  rfl

/-- C9 amended: only NaN and `-inf` argmax values are rejected as
not-better (IEEE comparisons with NaN are false, and `-inf` is never
strictly greater than the running best); a `+inf` value is strictly
greater than any running best other than `+inf`/NaN, so it is accepted and
written to the archive. -/
theorem claim9_nonfinite_rejected (obj : List (List ℕ) → List Score)
    (s : SearchState) (batch : List (List ℕ)) (i : ℕ) (v : Score)
    (hiv : npArgmax (obj batch) = some (i, v)) :
    ((v = .nan ∨ v = .negInf) → evalStep obj s batch = .ok s)
    ∧ (v = .posInf → s.scoreBest ≠ .posInf → s.scoreBest ≠ .nan →
        evalStep obj s batch
          = .ok ⟨some (batch.getD i []), v,
              s.updates ++ [(batch.getD i [], v)]⟩) := by
  have hget : (obj batch)[i]? = some v := npArgmax_getElem _ _ _ hiv
  constructor
  · rintro (rfl | rfl)
    · simp [evalStep, hiv, hget, Score.gt_nan_left]
    · simp [evalStep, hiv, hget, Score.gt_negInf_left]
  · rintro rfl h1 h2
    have hpos := Score.gt_posInf_left s.scoreBest h1 h2
    simp [evalStep, hiv, hget, hpos]

theorem claim9_nonfinite_rejected_witness :
    npArgmax ((fun _ : List (List ℕ) => [Score.negInf]) [[1, 0]])
      = some (0, Score.negInf)
    ∧ evalStep (fun _ : List (List ℕ) => [Score.negInf])
        ⟨none, .fin 0, []⟩ [[1, 0]] = .ok ⟨none, .fin 0, []⟩ :=
  ⟨by decide,
   (claim9_nonfinite_rejected (fun _ => [Score.negInf]) ⟨none, .fin 0, []⟩
     [[1, 0]] 0 .negInf (by decide)).1 (Or.inr rfl)⟩

/-- C8: the evaluator does form batches of exactly
`max(1, batch_bits // L)` candidates (`batchSize 12 6 = 2`), but the claim
that every batch including the final partial one is evaluated without
error fails: when the number of combinations is an exact multiple of the
batch size (here `C(6,3) = 20 = 10·2`), `_exhaustive_batch` yields a final
*empty* batch, and `np.argmax` of the empty score array raises
`ValueError`, crashing the search. -/
theorem claim8_empty_final_batch :
    batchSize 12 6 = 2
    ∧ (exhaustiveBatches 2 6 3).getLast? = some []
    ∧ evalStep (fun b : List (List ℕ) => b.map (fun _ => Score.fin 0))
        ⟨none, .negInf, []⟩ [] = .error .emptyArgmax := by
  refine ⟨rfl, by decide, rfl⟩

/-- C5: the claim that the `random` strategy draws only a bounded number
of candidates per length (a fixed fraction of the combinatorial count,
here `C(4,2) = 6`) and then terminates is false of the code:
`_random_batch` is `while True: yield codes` — it is never exhausted
(`genExhaustedWithin` stays false for every horizon), so the
`for batch in tqdm(_random_batch(...))` loop of `random` never exits, the
draw count `1024·fuel` grows without bound past any fraction of 6, and the
search never reaches the next length. -/
theorem claim5_random_unbounded :
    (combos (List.range 4) 2).length = 6
    ∧ (∀ fuel, genExhaustedWithin
        (randomBatchGen (fun _ _ => [0, 1]) 1024 4 2) fuel = false)
    ∧ (∀ fuel, drawnWithin (randomBatchGen (fun _ _ => [0, 1]) 1024 4 2) fuel
        = 1024 * fuel) := by
  refine ⟨by decide, ?_, ?_⟩
  · intro fuel
    simp only [genExhaustedWithin, List.any_eq_false, List.mem_range]
    intro n _
    simp only [randomBatchGen, Option.isNone_some, Bool.false_eq_true,
      not_false_eq_true]
  · intro fuel
    induction fuel with
    | zero => rfl
    | succ n ihn =>
      simp only [drawnWithin] at ihn ⊢
      rw [List.range_succ, List.map_append, List.sum_append, ihn]
      simp only [List.map_cons, List.map_nil, List.sum_cons, List.sum_nil,
        randomBatchGen, Option.getD_some, List.length_map, List.length_range]
      ring

/-- C6: every candidate produced by the exhaustive batch generator has
length `L` and popcount `k`; every candidate produced by the random batch
generator (under the contract of `rng.choice(L, k, replace=False)`) has
length `L` and popcount `k`; and every word the `lyndon` strategy scores
passes the filter `len >= K` and `popcount == int(len·density)`. -/
theorem claim6_popcount_invariant (L k bs K n : ℕ) (d : ℚ)
    (pick : ℕ → ℕ → List ℕ) (ws : List (List ℕ))
    (_hk : k = weightOf L d)
    (hpick : ∀ m r, (pick m r).Nodup ∧ (pick m r).length = k
      ∧ ∀ j ∈ pick m r, j < L)
    (batch : List (List ℕ)) (hb : batch ∈ exhaustiveBatches bs L k)
    (row : List ℕ) (hr : row ∈ batch)
    (row2 : List ℕ) (hr2 : row2 ∈ (randomBatchGen pick bs L k n).getD [])
    (w : List ℕ) (hw : w ∈ lyndonScored K d ws) :
    (row.length = L ∧ row.sum = k)
    ∧ (row2.length = L ∧ row2.sum = k)
    ∧ (K ≤ w.length ∧ w.sum = weightOf w.length d) := by
  refine ⟨?_, ?_, ?_⟩
  · obtain ⟨c, hc, rfl⟩ := exhaustiveBatches_row bs L k batch hb row hr
    obtain ⟨hlen, hsub⟩ := combos_mem (List.range L) k c hc
    have hnd : c.Nodup := List.Nodup.sublist hsub (List.nodup_range L)
    have hlt : ∀ m ∈ c, m < L :=
      fun m hm => List.mem_range.1 (hsub.subset hm)
    exact ⟨codeOf_length L c, by rw [codeOf_sum L c hnd hlt, hlen]⟩
  · simp only [randomBatchGen, Option.getD_some, List.mem_map,
      List.mem_range] at hr2
    obtain ⟨r, _, rfl⟩ := hr2
    obtain ⟨hnd, hlen, hlt⟩ := hpick n r
    exact ⟨codeOf_length L _, by rw [codeOf_sum L _ hnd hlt, hlen]⟩
  · simp only [lyndonScored, List.mem_filter, Bool.and_eq_true,
      decide_eq_true_eq] at hw
    exact ⟨hw.2.1, hw.2.2⟩

theorem claim6_popcount_invariant_witness :
    ((2 = weightOf 4 (1 / 2))
      ∧ (∀ m r : ℕ, (demoPick m r).Nodup ∧ (demoPick m r).length = 2
          ∧ ∀ j ∈ demoPick m r, j < 4)
      ∧ [[1, 1, 0, 0], [1, 0, 1, 0]] ∈ exhaustiveBatches 2 4 2
      ∧ [1, 1, 0, 0] ∈ [[1, 1, 0, 0], [1, 0, 1, 0]]
      ∧ [1, 1, 0, 0] ∈ (randomBatchGen demoPick 2 4 2 0).getD []
      ∧ [0, 1, 1, 0] ∈ lyndonScored 2 (1 / 2) [[0, 1, 1, 0]])
    ∧ (([1, 1, 0, 0] : List ℕ).length = 4 ∧ ([1, 1, 0, 0] : List ℕ).sum = 2)
      ∧ (([1, 1, 0, 0] : List ℕ).length = 4 ∧ ([1, 1, 0, 0] : List ℕ).sum = 2)
      ∧ (2 ≤ ([0, 1, 1, 0] : List ℕ).length
        ∧ ([0, 1, 1, 0] : List ℕ).sum
            = weightOf ([0, 1, 1, 0] : List ℕ).length (1 / 2)) :=
  ⟨⟨weightOf_four_half.symm, demoPick_spec,
    by decide, by decide, by decide, demoLyndonMem⟩,
   claim6_popcount_invariant 4 2 2 2 0 (1 / 2) demoPick
     [[0, 1, 1, 0]] weightOf_four_half.symm demoPick_spec
     [[1, 1, 0, 0], [1, 0, 1, 0]] (by decide) [1, 1, 0, 0] (by decide)
     [1, 1, 0, 0] (by decide) [0, 1, 1, 0] demoLyndonMem⟩

/-- C4: a container whose contents fail to parse is a fatal error on every
read path and is never treated as empty: `Archiver.fetch` and
`Archiver._get_data` (the open path) re-raise the JSON decode error, and
`ArchiverPandas.fetch` propagates the `read_json` failure (the call sits
outside its `try`); none of them returns the not-found sentinel
`(None, -inf, 0)`. -/
theorem claim4_corrupt_archive_fatal (st : ArchiverState)
    (pst : PandasState) (L w : ℕ) (o s : String)
    (h1 : st.files L = .corrupt) (h2 : st.current = none)
    (h3 : pst.disk = .corrupt) :
    archFetch st L o w = .error .corrupt
    ∧ archGetData st L = .error .corrupt
    ∧ pandasFetch pst s o w = .error .corrupt := by
  refine ⟨?_, ?_, ?_⟩
  · simp [archFetch, h1]
  · simp [archGetData, archLoad, archCloseFile, h1, h2]
  · simp [pandasFetch, h3]

theorem claim4_corrupt_archive_fatal_witness :
    (((⟨fun _ => .corrupt, none⟩ : ArchiverState).files 5 = .corrupt)
      ∧ ((⟨fun _ => .corrupt, none⟩ : ArchiverState).current = none)
      ∧ ((⟨[], .negInf, 0, false, .corrupt⟩ : PandasState).disk = .corrupt))
    ∧ (archFetch ⟨fun _ => .corrupt, none⟩ 5 "spectral_flatness" 2
        = .error .corrupt
      ∧ archGetData ⟨fun _ => .corrupt, none⟩ 5 = .error .corrupt
      ∧ pandasFetch ⟨[], .negInf, 0, false, .corrupt⟩ "necklace"
          "spectral_flatness" 2 = .error .corrupt) :=
  ⟨⟨rfl, rfl, rfl⟩,
   claim4_corrupt_archive_fatal ⟨fun _ => .corrupt, none⟩
     ⟨[], .negInf, 0, false, .corrupt⟩ 5 2 "spectral_flatness" "necklace"
     rfl rfl rfl⟩

theorem round6_tolerance (q : ℚ) : |round6 q - q| ≤ 1 / 2000000 := by
  unfold round6
  rw [show (round (q * 1000000) : ℚ) / 1000000 - q
      = ((round (q * 1000000) : ℚ) - q * 1000000) / 1000000 by ring]
  rw [abs_div, show |(1000000 : ℚ)| = 1000000 by norm_num,
    div_le_iff₀ (by norm_num : (0 : ℚ) < 1000000),
    show (1 : ℚ) / 2000000 * 1000000 = 1 / 2 by norm_num, abs_sub_comm]
  exact abs_sub_round (q * 1000000)

/-- C2 counterexample: `update` is not write-through.  On a fresh archive
(the container file does not exist yet), `update` with cost `5` — strictly
greater than the stored sentinel cost `-inf` — followed by `fetch` of the
same (strategy, objective, weight) triple returns the not-found sentinel
`(None, -inf, 0)`, not the updated code and cost: `update` only appended
to the in-memory table (the dump is deferred for up to 31 minutes), while
`fetch` reads the container from disk. -/
theorem claim2_writethrough_cex :
    (pandasUpdate (pandasEnter .missing 0) "exhaustive" "coded_factor"
        [1, 0] (.fin 5) 1 3 10).map
      (fun st1 => (pandasFetch st1 "exhaustive" "coded_factor" 1).map
        Prod.fst)
      = .ok (.ok (none, Score.negInf, 0)) := rfl

/-- C2 amended: the round trip holds only through a dump: `update` with a
cost strictly greater than the fetched best (and greater, after rounding,
than every matching record on disk and in memory), followed by `__dump__`
(as run by `close`/`__exit__` or the 31-minute flush) and then `fetch` of
the same triple, returns the same code and the cost rounded to six decimal
places — within `1/2000000` of the updated cost.  Before the dump the
update is buffered in memory only (see the counterexample), so a crash
loses up to 31 minutes of accepted updates, not just the in-flight
batch. -/
theorem claim2_buffered_roundtrip (st : PandasState) (ex : List Row)
    (s o : String) (code : List ℕ) (q : ℚ) (w p : ℕ) (now now2 : ℤ)
    (hdisk : st.disk = .good ex)
    (hgt : Score.gt (.fin q) st.bestCost = true)
    (hfresh : ¬ (now - st.lastWrite > 1860))
    (hmax : ∀ r ∈ ex ++ st.table, rowMatches s o w r = true →
      Score.gt (.fin (round6 q)) (roundCost r.cost) = true) :
    ∃ st1 st2,
      pandasUpdate st s o code (.fin q) w p now = .ok st1
      ∧ pandasDump st1 now2 = .ok st2
      ∧ (pandasFetch st2 s o w).map Prod.fst
          = .ok (some code, .fin (round6 q), p)
      ∧ |round6 q - q| ≤ 1 / 2000000 := by
  set R := mkRow s o code (.fin q) w p with hR
  have hrec : pandasRecord st s o code (.fin q) w p
      = ⟨st.table ++ [R], st.bestCost, st.lastWrite, true, st.disk⟩ := by
    unfold pandasRecord
    rw [if_pos hgt, hR]
  have hupd : pandasUpdate st s o code (.fin q) w p now
      = .ok ⟨st.table ++ [R], st.bestCost, st.lastWrite, true, st.disk⟩ := by
    simp only [pandasUpdate, hrec]
    rw [if_neg]
    intro hcon
    exact hfresh hcon.2
  have hmapsplit : ((ex ++ (st.table ++ [R])).map roundRow)
      = ((ex ++ st.table).map roundRow) ++ [roundRow R] := by
    rw [← List.append_assoc, List.map_append]
    rfl
  have hdump : pandasDump
      ⟨st.table ++ [R], st.bestCost, st.lastWrite, true, st.disk⟩ now2
      = .ok ⟨dropDupKeepLast (((ex ++ st.table).map roundRow)
            ++ [roundRow R]), st.bestCost, now2, false,
          .good (dropDupKeepLast (((ex ++ st.table).map roundRow)
            ++ [roundRow R]))⟩ := by
    simp only [pandasDump, hdisk]
    rw [hmapsplit]
  obtain ⟨u, hu, humem⟩ :=
    dropDupKeepLast_concat ((ex ++ st.table).map roundRow) (roundRow R)
  have hmatchR : rowMatches s o w (roundRow R) = true := by
    simp [rowMatches, roundRow, hR, mkRow]
  have hfilter : (dropDupKeepLast (((ex ++ st.table).map roundRow)
      ++ [roundRow R])).filter (rowMatches s o w)
      = (u.filter (rowMatches s o w)) ++ [roundRow R] := by
    rw [hu, List.filter_append]
    simp [hmatchR]
  have hall : ∀ c ∈ (u.filter (rowMatches s o w)).map (·.cost),
      Score.gt (.fin (round6 q)) c = true := by
    intro c hc
    obtain ⟨x, hx, rfl⟩ := List.mem_map.1 hc
    have hxu : x ∈ u := (List.mem_filter.1 hx).1
    have hxm : rowMatches s o w x = true := (List.mem_filter.1 hx).2
    obtain ⟨r0, hr0, rfl⟩ := List.mem_map.1 (humem x hxu)
    exact hmax r0 hr0 hxm
  have hidx : pdIdxmax (((dropDupKeepLast (((ex ++ st.table).map roundRow)
      ++ [roundRow R])).filter (rowMatches s o w)).map (·.cost))
      = some ((u.filter (rowMatches s o w)).length, .fin (round6 q)) := by
    rw [hfilter, List.map_append]
    have hone : ([roundRow R].map (·.cost)) = [Score.fin (round6 q)] := rfl
    rw [hone]
    have := pdIdxmax_concat ((u.filter (rowMatches s o w)).map (·.cost))
      (.fin (round6 q)) rfl hall
    rwa [List.length_map] at this
  have hget : ((dropDupKeepLast (((ex ++ st.table).map roundRow)
      ++ [roundRow R])).filter (rowMatches s o w)).get?
      ((u.filter (rowMatches s o w)).length) = some (roundRow R) := by
    rw [hfilter, List.get?_eq_getElem?, List.getElem?_concat_length]
  refine ⟨_, _, hupd, hdump, ?_, round6_tolerance q⟩
  simp only [pandasFetch, hidx, hget]
  rfl

theorem claim2_buffered_roundtrip_witness :
    (((pandasEnter (.good []) 0).disk = DiskFile.good []
        ∧ Score.gt (.fin 5) (pandasEnter (DiskFile.good []) 0).bestCost = true
        ∧ ¬ ((10 : ℤ) - (pandasEnter (DiskFile.good []) 0).lastWrite > 1860)
        ∧ ∀ r ∈ ([] ++ (pandasEnter (DiskFile.good []) 0).table),
            rowMatches "exhaustive" "coded_factor" 1 r = true →
            Score.gt (.fin (round6 5)) (roundCost r.cost) = true)
      ∧ ∃ st1 st2,
          pandasUpdate (pandasEnter (.good []) 0) "exhaustive"
            "coded_factor" [1, 0] (.fin 5) 1 3 10 = .ok st1
          ∧ pandasDump st1 20 = .ok st2
          ∧ (pandasFetch st2 "exhaustive" "coded_factor" 1).map Prod.fst
              = .ok (some [1, 0], .fin (round6 5), 3)
          ∧ |round6 5 - 5| ≤ 1 / 2000000) :=
  ⟨⟨rfl, rfl, by decide, by decide⟩,
   claim2_buffered_roundtrip (pandasEnter (.good []) 0) [] "exhaustive"
     "coded_factor" [1, 0] 5 1 3 10 20 rfl rfl (by decide) (by decide)⟩

/-- C3 counterexample: the stored record is *not* replaced iff the new
cost beats the currently stored cost, and a non-improving update does
*not* advance any progress counter.  First chain: after an update with
cost 5, a second update with cost 3 still appends a new row (3 is compared
against the never-updated `self.best_cost = -inf`, not against the stored
5).  Second chain: after `fetch` sets `best_cost = 10`, an update with
cost 7 and progress 99 stores nothing at all — the table stays empty and
progress 99 is lost. -/
theorem claim3_update_compare_cex :
    ((pandasUpdate (pandasEnter (.good []) 0) "necklace" "spectral_flatness"
        [1] (.fin 5) 2 1 1 >>= fun a =>
      pandasUpdate a "necklace" "spectral_flatness" [0] (.fin 3) 2 2 2).map
        (fun b => b.table)
      = .ok [mkRow "necklace" "spectral_flatness" [1] (.fin 5) 2 1,
             mkRow "necklace" "spectral_flatness" [0] (.fin 3) 2 2])
    ∧ ((pandasFetch (pandasEnter (.good [mkRow "necklace"
          "spectral_flatness" [1, 1] (.fin 10) 2 4]) 0) "necklace"
          "spectral_flatness" 2 >>= fun r =>
        pandasUpdate r.2 "necklace" "spectral_flatness" [1] (.fin 7) 2 99
          3).map (fun b => (b.table, b.bestCost))
      = .ok ([], .fin 10)) :=
  ⟨rfl, rfl⟩

/-- C3 amended: `ArchiverPandas.update` appends a new row iff the cost is
strictly greater than `self.best_cost` — the value fixed by the last
`fetch`/`__enter__`, which `update` itself never changes; when the cost is
not greater, the state is left entirely unchanged, so nothing is stored
and no progress counter advances. -/
theorem claim3_update_semantics (st : PandasState) (s o : String)
    (code : List ℕ) (cost : Score) (w p : ℕ) (now : ℤ)
    (hfresh : ¬ (now - st.lastWrite > 1860)) :
    pandasUpdate st s o code cost w p now
      = .ok (pandasRecord st s o code cost w p)
    ∧ ((pandasRecord st s o code cost w p).table
        = st.table ++ [mkRow s o code cost w p]
        ↔ Score.gt cost st.bestCost = true)
    ∧ (pandasRecord st s o code cost w p).bestCost = st.bestCost
    ∧ (Score.gt cost st.bestCost = false →
        pandasRecord st s o code cost w p = st) := by
  have hlw : (pandasRecord st s o code cost w p).lastWrite = st.lastWrite := by
    unfold pandasRecord
    split <;> rfl
  refine ⟨?_, ?_, ?_, ?_⟩
  · have hcond : ¬ ((pandasRecord st s o code cost w p).needsDump
        ∧ now - (pandasRecord st s o code cost w p).lastWrite > 1860) := by
      rw [hlw]
      intro hcon
      exact hfresh hcon.2
    simp only [pandasUpdate]
    rw [if_neg hcond]
  · constructor
    · intro htab
      by_contra hgt
      rw [Bool.not_eq_true] at hgt
      unfold pandasRecord at htab
      rw [if_neg (by simp [hgt])] at htab
      have hlen := congrArg List.length htab
      simp at hlen
    · intro hgt
      unfold pandasRecord
      rw [if_pos hgt]
  · unfold pandasRecord
    split <;> rfl
  · intro hgt
    unfold pandasRecord
    rw [if_neg (by simp [hgt])]

theorem claim3_update_semantics_witness :
    (¬ ((5 : ℤ) - (pandasEnter (DiskFile.missing) 0).lastWrite > 1860))
    ∧ (pandasUpdate (pandasEnter .missing 0) "lyndon" "minimal_variance"
        [1, 1] (.fin 2) 2 7 5
        = .ok (pandasRecord (pandasEnter .missing 0) "lyndon"
            "minimal_variance" [1, 1] (.fin 2) 2 7)
      ∧ ((pandasRecord (pandasEnter .missing 0) "lyndon" "minimal_variance"
          [1, 1] (.fin 2) 2 7).table
          = (pandasEnter (DiskFile.missing) 0).table
            ++ [mkRow "lyndon" "minimal_variance" [1, 1] (.fin 2) 2 7]
          ↔ Score.gt (.fin 2) (pandasEnter (DiskFile.missing) 0).bestCost
            = true)
      ∧ (pandasRecord (pandasEnter .missing 0) "lyndon" "minimal_variance"
          [1, 1] (.fin 2) 2 7).bestCost
          = (pandasEnter (DiskFile.missing) 0).bestCost
      ∧ (Score.gt (.fin 2) (pandasEnter (DiskFile.missing) 0).bestCost
            = false →
          pandasRecord (pandasEnter .missing 0) "lyndon" "minimal_variance"
            [1, 1] (.fin 2) 2 7 = pandasEnter (DiskFile.missing) 0)) :=
  ⟨by decide,
   claim3_update_semantics (pandasEnter .missing 0) "lyndon"
     "minimal_variance" [1, 1] (.fin 2) 2 7 5 (by decide)⟩

/-- C7 counterexample: within one pandas container, the triple
(strategy, objective name, weight) does *not* identify at most one record
after the dump step: two updates for the same triple with different
progress values both survive `drop_duplicates`, whose column subset is
`(objective, weight, progress)` — two rows with the same search strategy,
objective and weight persist on disk. -/
theorem claim7_duplicate_triple_cex :
    (pandasUpdate (pandasEnter .missing 0) "necklace" "coded_factor" [1]
        (.fin 1) 2 1 1 >>= fun a =>
      pandasUpdate a "necklace" "coded_factor" [0] (.fin 2) 2 2 2
        >>= fun b => pandasDump b 3).map (fun c => c.disk)
      = .ok (.good
          [roundRow (mkRow "necklace" "coded_factor" [1] (.fin 1) 2 1),
           roundRow (mkRow "necklace" "coded_factor" [0] (.fin 2) 2 2)])
    ∧ (roundRow (mkRow "necklace" "coded_factor" [1] (.fin 1) 2 1)).search
        = (roundRow (mkRow "necklace" "coded_factor" [0] (.fin 2) 2 2)).search
    ∧ (roundRow (mkRow "necklace" "coded_factor" [1] (.fin 1) 2 1)).objective
        = (roundRow (mkRow "necklace" "coded_factor" [0] (.fin 2) 2 2)).objective
    ∧ (roundRow (mkRow "necklace" "coded_factor" [1] (.fin 1) 2 1)).weight
        = (roundRow (mkRow "necklace" "coded_factor" [0] (.fin 2) 2 2)).weight :=
  ⟨rfl, rfl, rfl, rfl⟩

/-- C7 amended: uniqueness holds for different keys than the claim states.
In the plain JSON archive, `update` keeps at most one record per
`(weight, objective)` pair (dict semantics; no strategy field exists).
In the pandas archive, the table written by `__dump__` is duplicate-free
with respect to `(objective, weight, progress)` — the `drop_duplicates`
subset — and the dumped table is exactly what is on disk; records sharing
(strategy, objective, weight) but differing in progress are all kept. -/
theorem claim7_uniqueness_amended (d : JsonData) (o : String)
    (code : List ℕ) (cost : Score) (w : ℕ) (st st2 : PandasState) (now : ℤ)
    (hnd : (d.map Prod.fst).Nodup)
    (hdump : pandasDump st now = .ok st2) :
    ((jsonUpdate d o code cost w).map Prod.fst).Nodup
    ∧ st2.table.Pairwise (fun a b => keyOf a ≠ keyOf b)
    ∧ st2.disk = .good st2.table := by
  refine ⟨jsonUpdate_nodupKeys d o code cost w hnd, ?_⟩
  rcases hdisk : st.disk with _ | _ | ex
  · simp only [pandasDump, hdisk] at hdump
    have h2 : st2 = ⟨dropDupKeepLast (st.table.map roundRow), st.bestCost,
        now, false, .good (dropDupKeepLast (st.table.map roundRow))⟩ :=
      (Except.ok.inj hdump).symm
    rw [h2]
    exact ⟨dropDupKeepLast_pairwise _, rfl⟩
  · simp only [pandasDump, hdisk] at hdump
    exact Except.noConfusion hdump
  · simp only [pandasDump, hdisk] at hdump
    have h2 : st2 = ⟨dropDupKeepLast ((ex ++ st.table).map roundRow),
        st.bestCost, now, false,
        .good (dropDupKeepLast ((ex ++ st.table).map roundRow))⟩ :=
      (Except.ok.inj hdump).symm
    rw [h2]
    exact ⟨dropDupKeepLast_pairwise _, rfl⟩

theorem claim7_uniqueness_amended_witness :
    (((([((2, "spectral_flatness"), ⟨Score.fin 1, [1, 0]⟩)] : JsonData)).map
        Prod.fst).Nodup
      ∧ pandasDump (pandasEnter .missing 0) 9
          = .ok ⟨[], .negInf, 9, false, .good []⟩)
    ∧ (((jsonUpdate [((2, "spectral_flatness"), ⟨Score.fin 1, [1, 0]⟩)]
          "spectral_flatness" [0, 1] (.fin 2) 2).map Prod.fst).Nodup
      ∧ (⟨[], .negInf, 9, false, .good []⟩ : PandasState).table.Pairwise
          (fun a b => keyOf a ≠ keyOf b)
      ∧ (⟨[], .negInf, 9, false, .good []⟩ : PandasState).disk
          = .good (⟨[], .negInf, 9, false, .good []⟩ : PandasState).table) :=
  ⟨⟨by decide, rfl⟩,
   claim7_uniqueness_amended
     [((2, "spectral_flatness"), ⟨Score.fin 1, [1, 0]⟩)] "spectral_flatness"
     [0, 1] (.fin 2) 2 (pandasEnter .missing 0)
     ⟨[], .negInf, 9, false, .good []⟩ 9 (by decide) rfl⟩

end Jeweler
